import Mathlib

set_option autoImplicit false

/-!
Verification of the state-store component (`matrix_sdk_base/src/store.rs`).

The sled-backed `Store` is embedded shallowly: each sled `Tree` region is an
association list from byte-string keys to already-decoded values (serde's
`to_vec`/`from_slice` round-trip on the value types is modelled as the
identity, so a stored value stands for its encoded bytes).  `save_changes`
is translated write-for-write, in the order the source issues its writes.
-/

namespace MatrixStore

/-- An already-validated Matrix room identifier (a wrapped string, as the
store only ever uses `as_str`/`as_bytes` on it). -/
structure RoomId where
  str : String
deriving DecidableEq

/-- An already-validated Matrix user identifier. -/
structure UserId where
  str : String
deriving DecidableEq

/-- `MembershipState` from `matrix_sdk_common::events::room::member`. -/
inductive MembershipState where
  | join
  | invite
  | leave
  | ban
  | knock
deriving DecidableEq

/-- `Session`: user id, device id, access token. -/
structure Session where
  user_id : UserId
  device_id : String
  access_token : String
deriving DecidableEq

/-- The part of a member event's content the store inspects. -/
structure MemberEventContent where
  membership : MembershipState
deriving DecidableEq

/-- `responses::MemberEvent`: its `state_key` is a parsed `UserId`. -/
structure MemberEvent where
  event_id : String
  sender : UserId
  state_key : UserId
  content : MemberEventContent
deriving DecidableEq

/-- `responses::StrippedMemberEvent`: its `state_key` is a raw string
(`add_stripped_member` parses it into a `UserId`). -/
structure StrippedMemberEvent where
  sender : UserId
  state_key : String
  content : MemberEventContent
deriving DecidableEq

/-- `AnySyncStateEvent`, reduced to the projections the store uses:
`content().event_type()` and `state_key()`, plus an opaque payload. -/
structure AnySyncStateEvent where
  event_type : String
  state_key : String
  payload : String
deriving DecidableEq

/-- `AnyStrippedStateEvent`, same projections. -/
structure AnyStrippedStateEvent where
  event_type : String
  state_key : String
  payload : String
deriving DecidableEq

/-- `AnyBasicEvent`: account-data event with its `event_type()`. -/
structure AnyBasicEvent where
  event_type : String
  payload : String
deriving DecidableEq

/-- `PresenceEvent`: keyed by its `sender`. -/
structure PresenceEvent where
  sender : UserId
  payload : String
deriving DecidableEq

/-- `rooms::RoomInfo`: per-room summary with its `room_id`. -/
structure RoomInfo where
  room_id : RoomId
  payload : String
deriving DecidableEq

/-- A sled `Tree` region: an association list from byte-string keys to
values.  sled keeps entries sorted by key; the list order here is
most-recently-inserted first, which agrees with sled on every
order-insensitive observation used below. -/
abbrev Tree (α : Type) : Type := List (String × α)

/-- `Tree.remove`: drop every entry whose key equals `k`. -/
def Tree.remove {α : Type} : Tree α → String → Tree α
  | [], _ => []
  | e :: t, k => if e.1 = k then Tree.remove t k else e :: Tree.remove t k

/-- `Tree.insert`: overwrite the entry at key `k` with value `v`. -/
def Tree.insert {α : Type} (t : Tree α) (k : String) (v : α) : Tree α :=
  (k, v) :: Tree.remove t k

/-- `Tree.get`: point lookup, `none` when the key is unset. -/
def Tree.get {α : Type} : Tree α → String → Option α
  | [], _ => none
  | e :: t, k => if e.1 = k then some e.2 else Tree.get t k

/-- Byte-string prefix test (`p` is a prefix of `s`), used by
`scan_prefix`; for valid UTF-8 strings byte-prefix and character-prefix
coincide. -/
def strHasPre (p s : String) : Bool :=
  List.isPrefixOf p.data s.data

/-- `Tree.scanPre`: all entries whose key starts with `p`
(sled's `scan_prefix`). -/
def Tree.scanPre {α : Type} (t : Tree α) (p : String) : Tree α :=
  List.filter (fun e => strHasPre p e.1) t

/-- A single write issued inside the `save_changes` transaction. -/
inductive Op (α : Type) where
  | ins (k : String) (v : α)
  | del (k : String)
deriving DecidableEq

/-- The key a write touches. -/
def Op.key {α : Type} : Op α → String
  | .ins k _ => k
  | .del k => k

/-- Apply one write to a region. -/
def Tree.applyOp {α : Type} (t : Tree α) : Op α → Tree α
  | .ins k v => Tree.insert t k v
  | .del k => Tree.remove t k

/-- Apply a write sequence left to right. -/
def Tree.applyOps {α : Type} : Tree α → List (Op α) → Tree α
  | t, [] => t
  | t, o :: w => Tree.applyOps (Tree.applyOp t o) w

/-- The value stored under the `"session"` key: either an encoded
`Session` record or a raw filter-id string (`save_filter` shares the
session tree). -/
inductive SessionValue where
  | sess (s : Session)
  | str (s : String)
deriving DecidableEq

/-- `StateChanges`: the change-set accumulator.  The `BTreeMap`s of the
source are modelled as association lists (distinct keys when produced by
the accumulator methods); `save_changes` iterates them in list order. -/
structure StateChanges where
  session : Option Session
  account_data : List (String × AnyBasicEvent)
  presence : List (UserId × PresenceEvent)
  members : List (RoomId × List (UserId × MemberEvent))
  state : List (RoomId × List (String × List (String × AnySyncStateEvent)))
  room_account_data : List (RoomId × List (String × AnyBasicEvent))
  room_infos : List (RoomId × RoomInfo)
  stripped_state : List (RoomId × List (String × List (String × AnyStrippedStateEvent)))
  stripped_members : List (RoomId × List (UserId × StrippedMemberEvent))
  invited_room_info : List (RoomId × RoomInfo)
deriving DecidableEq

/-- `StateChanges::default()`. -/
def StateChanges.empty : StateChanges :=
  ⟨none, [], [], [], [], [], [], [], [], []⟩

/-- `impl From<Session> for StateChanges`. -/
def StateChanges.fromSession (session : Session) : StateChanges :=
  { StateChanges.empty with session := some session }

/-- Map insertion for the association-list model of `BTreeMap::insert`:
replace in place, or append when absent. -/
def insertAL {κ α : Type} [DecidableEq κ] (k : κ) (v : α) : List (κ × α) → List (κ × α)
  | [] => [(k, v)]
  | e :: t => if e.1 = k then (k, v) :: t else e :: insertAL k v t

/-- Map lookup for the association-list model of `BTreeMap`. -/
def lookupAL {κ α : Type} [DecidableEq κ] (k : κ) : List (κ × α) → Option α
  | [] => none
  | e :: t => if e.1 = k then some e.2 else lookupAL k t

/-- Modelled from the spec: the user-id parser (`UserId::try_from`, which
lives in the `matrix_sdk_common` identifiers re-export of this repository,
not under `src/`) accepts the Matrix form `@localpart:domain`; the spec
only says identifiers are "already-validated", so validity is modelled as
the sigil-and-separator check.  The claims below do not depend on which
strings exactly pass. -/
def validUserIdStr (s : String) : Bool :=
  match s.data with
  | [] => false
  | c :: rest => c == '@' && rest.contains ':'

/-- Modelled from the spec: fallible user-id parse, `none` on invalid. -/
def UserId.tryFrom (s : String) : Option UserId :=
  if validUserIdStr s then some ⟨s⟩ else none

/-- `StateChanges::add_stripped_member`.  The source unwraps the
`UserId::try_from` parse of `event.state_key`; the panic on a failed parse
is modelled as `none`. -/
def StateChanges.add_stripped_member (c : StateChanges) (room_id : RoomId)
    (event : StrippedMemberEvent) : Option StateChanges :=
  match UserId.tryFrom event.state_key with
  | none => none
  | some user_id =>
    some { c with
      stripped_members :=
        insertAL room_id
          (insertAL user_id event
            ((lookupAL room_id c.stripped_members).getD []))
          c.stripped_members }

/-- Composite key of the members / joined / invited regions:
`format!("\x7b\x7d\x7b\x7d", room.as_str(), event.state_key.as_str())`. -/
def memberKey (room : RoomId) (state_key : String) : String :=
  room.str ++ state_key

/-- Composite key of the room-state regions:
room id, then the event's type, then its state key, concatenated. -/
def stateKey3 (room : RoomId) (event_type state_key : String) : String :=
  room.str ++ event_type ++ state_key

/-- Composite key of the room-account-data region. -/
def roomAccountKey (room : RoomId) (event_type : String) : String :=
  room.str ++ event_type

/-- Key written by `save_filter`: the literal `"filter"` followed by the
filter name. -/
def filterKey (name : String) : String :=
  "filter" ++ name

/-- The member events of one change set in the order `save_changes`
iterates them (rooms in map order, then each room's events). -/
def memberSeq (c : StateChanges) : List (RoomId × MemberEvent) :=
  List.flatMap c.members (fun re => re.2.map (fun ue => (re.1, ue.2)))

/-- The write one member event issues on the joined-users index:
insert on `Join`, remove otherwise (`Invite` and the catch-all arm both
remove from this index). -/
def joinedOp (p : RoomId × MemberEvent) : Op String :=
  if p.2.content.membership = MembershipState.join
  then .ins (memberKey p.1 p.2.state_key.str) p.2.state_key.str
  else .del (memberKey p.1 p.2.state_key.str)

/-- The write one member event issues on the invited-users index:
insert on `Invite`, remove otherwise. -/
def invitedOp (p : RoomId × MemberEvent) : Op String :=
  if p.2.content.membership = MembershipState.invite
  then .ins (memberKey p.1 p.2.state_key.str) p.2.state_key.str
  else .del (memberKey p.1 p.2.state_key.str)

/-- The unconditional upsert of the member record, keyed by the event's
own `state_key`. -/
def memberOp (p : RoomId × MemberEvent) : Op MemberEvent :=
  .ins (memberKey p.1 p.2.state_key.str) p.2

/-- Writes of `save_changes` on the session tree. -/
def sessionOps (c : StateChanges) : List (Op SessionValue) :=
  match c.session with
  | none => []
  | some s => [.ins "session" (.sess s)]

/-- Writes on the account-data tree (keyed by event type). -/
def accountDataOps (c : StateChanges) : List (Op AnyBasicEvent) :=
  c.account_data.map (fun te => .ins te.1 te.2)

/-- Writes on the room-account-data tree. -/
def roomAccountDataOps (c : StateChanges) : List (Op AnyBasicEvent) :=
  List.flatMap c.room_account_data
    (fun re => re.2.map (fun te => .ins (roomAccountKey re.1 te.1) te.2))

/-- Writes on the room-state tree; the key uses the event's own type and
state key, as in the source. -/
def stateOps (c : StateChanges) : List (Op AnySyncStateEvent) :=
  List.flatMap c.state (fun rt =>
    List.flatMap rt.2 (fun tv =>
      tv.2.map (fun ke => .ins (stateKey3 rt.1 ke.2.event_type ke.2.state_key) ke.2)))

/-- Writes on the room-info tree (keyed by room id). -/
def roomInfoOps (c : StateChanges) : List (Op RoomInfo) :=
  c.room_infos.map (fun ri => .ins ri.1.str ri.2)

/-- Writes on the presence tree (keyed by the batch's sender key). -/
def presenceOps (c : StateChanges) : List (Op PresenceEvent) :=
  c.presence.map (fun ue => .ins ue.1.str ue.2)

/-- Writes on the stripped-room-info tree. -/
def strippedRoomInfoOps (c : StateChanges) : List (Op RoomInfo) :=
  c.invited_room_info.map (fun ri => .ins ri.1.str ri.2)

/-- Writes on the stripped-members tree (key: room id ++ raw state key). -/
def strippedMembersOps (c : StateChanges) : List (Op StrippedMemberEvent) :=
  List.flatMap c.stripped_members
    (fun re => re.2.map (fun ue => .ins (memberKey re.1 ue.2.state_key) ue.2))

/-- Writes on the stripped-room-state tree. -/
def strippedStateOps (c : StateChanges) : List (Op AnyStrippedStateEvent) :=
  List.flatMap c.stripped_state (fun rt =>
    List.flatMap rt.2 (fun tv =>
      tv.2.map (fun ke => .ins (stateKey3 rt.1 ke.2.event_type ke.2.state_key) ke.2)))

/-- The `Store`: twelve sled tree regions. -/
@[ext]
structure Store where
  session : Tree SessionValue
  account_data : Tree AnyBasicEvent
  members : Tree MemberEvent
  joined_user_ids : Tree String
  invited_user_ids : Tree String
  room_info : Tree RoomInfo
  room_state : Tree AnySyncStateEvent
  room_account_data : Tree AnyBasicEvent
  presence : Tree PresenceEvent
  stripped_room_info : Tree RoomInfo
  stripped_members : Tree StrippedMemberEvent
  stripped_room_state : Tree AnyStrippedStateEvent

/-- `Store::open()`: a fresh store with every region empty. -/
def Store.openStore : Store :=
  ⟨[], [], [], [], [], [], [], [], [], [], [], []⟩

/-- `Store::save_changes`: apply every populated field of the change set,
region by region, each region receiving its write sequence in source
order. -/
def saveChanges (S : Store) (c : StateChanges) : Store where
  session := Tree.applyOps S.session (sessionOps c)
  account_data := Tree.applyOps S.account_data (accountDataOps c)
  members := Tree.applyOps S.members ((memberSeq c).map memberOp)
  joined_user_ids := Tree.applyOps S.joined_user_ids ((memberSeq c).map joinedOp)
  invited_user_ids := Tree.applyOps S.invited_user_ids ((memberSeq c).map invitedOp)
  room_info := Tree.applyOps S.room_info (roomInfoOps c)
  room_state := Tree.applyOps S.room_state (stateOps c)
  room_account_data := Tree.applyOps S.room_account_data (roomAccountDataOps c)
  presence := Tree.applyOps S.presence (presenceOps c)
  stripped_room_info := Tree.applyOps S.stripped_room_info (strippedRoomInfoOps c)
  stripped_members := Tree.applyOps S.stripped_members (strippedMembersOps c)
  stripped_room_state := Tree.applyOps S.stripped_room_state (strippedStateOps c)

/-- A sequence of commits, oldest first. -/
def saveAll (S : Store) (cs : List StateChanges) : Store :=
  cs.foldl saveChanges S

/-- `Store::save_filter`: writes the filter id under `"filter" ++ name`
in the session tree (outside the transactional path). -/
def Store.saveFilter (S : Store) (filter_name filter_id : String) : Store :=
  { S with session := Tree.insert S.session (filterKey filter_name) (.str filter_id) }

/-- A deterministic stand-in for the JSON bytes of a `Session`, used only
to model `String::from_utf8_lossy` reading a non-filter value. -/
def Session.encode (s : Session) : String :=
  s.user_id.str ++ "/" ++ s.device_id ++ "/" ++ s.access_token

/-- The bytes of a session-tree value, as `from_utf8_lossy` sees them. -/
def SessionValue.text : SessionValue → String
  | .sess s => Session.encode s
  | .str s => s

/-- `Store::get_filter`. -/
def Store.getFilter (S : Store) (filter_name : String) : Option String :=
  (Tree.get S.session (filterKey filter_name)).map SessionValue.text

/-- `Store::get_session`: reads the `"session"` key.  A raw filter string
under that key would fail the source's JSON decode; it is unreachable
(only `save_changes` writes this key) and modelled as `none`. -/
def Store.getSession (S : Store) : Option Session :=
  (Tree.get S.session "session").bind (fun v =>
    match v with
    | .sess s => some s
    | .str _ => none)

/-- `Store::get_presence_event`. -/
def Store.getPresenceEvent (S : Store) (user_id : UserId) : Option PresenceEvent :=
  Tree.get S.presence user_id.str

/-- `Store::get_state_event`. -/
def Store.getStateEvent (S : Store) (room_id : RoomId) (event_type state_key : String) :
    Option AnySyncStateEvent :=
  Tree.get S.room_state (stateKey3 room_id event_type state_key)

/-- `Store::get_member_event`. -/
def Store.getMemberEvent (S : Store) (room_id : RoomId) (state_key : UserId) :
    Option MemberEvent :=
  Tree.get S.members (memberKey room_id state_key.str)

/-- `Store::get_joined_user_ids`: the values of every joined-index entry
whose key starts with the room id; the source parses each value back into
a `UserId`. -/
def Store.getJoinedUserIds (S : Store) (room_id : RoomId) : List UserId :=
  (Tree.scanPre S.joined_user_ids room_id.str).map (fun e => UserId.mk e.2)

/-- `Store::get_invited_user_ids`. -/
def Store.getInvitedUserIds (S : Store) (room_id : RoomId) : List UserId :=
  (Tree.scanPre S.invited_user_ids room_id.str).map (fun e => UserId.mk e.2)

/-- `Store::get_room_infos`. -/
def Store.getRoomInfos (S : Store) : List RoomInfo :=
  S.room_info.map (fun e => e.2)

/-- A sequence of `save_filter` calls, oldest first. -/
def saveFilters (S : Store) (l : List (String × String)) : Store :=
  l.foldl (fun T p => Store.saveFilter T p.1 p.2) S

/-- Does a write sequence touch key `k`? -/
def opsTouch {α : Type} : List (Op α) → String → Bool
  | [], _ => false
  | o :: w, k => (Op.key o == k) || opsTouch w k

/-- Entries of a region whose key no write of `w` touches. -/
def dropTouched {α : Type} (w : List (Op α)) (t : Tree α) : Tree α :=
  List.filter (fun e => !(opsTouch w e.1)) t

/-- The last write of a sequence touching key `k`. -/
def lastOn {α : Type} : List (Op α) → String → Option (Op α)
  | [], _ => none
  | o :: w, k =>
    match lastOn w k with
    | some o' => some o'
    | none => if Op.key o = k then some o else none

/-- The last member event of a commit sequence whose store key is `k`. -/
def lastMemberWrite : List (RoomId × MemberEvent) → String → Option (RoomId × MemberEvent)
  | [], _ => none
  | p :: l, k =>
    match lastMemberWrite l k with
    | some q => some q
    | none => if memberKey p.1 p.2.state_key.str = k then some p else none

/-- The most recently committed member event for the (room, user) pair:
batched under `room` with the event's own `state_key` equal to `user`. -/
def lastMemberEventFor : List (RoomId × MemberEvent) → RoomId → UserId → Option MemberEvent
  | [], _, _ => none
  | p :: l, room, user =>
    match lastMemberEventFor l room user with
    | some e => some e
    | none => if p.1 = room ∧ p.2.state_key = user then some p.2 else none

/-- A change set holding exactly one member event, batched under `user`. -/
def singletonMemberChange (room : RoomId) (user : UserId) (event : MemberEvent) :
    StateChanges :=
  { StateChanges.empty with members := [(room, [(user, event)])] }

/-- A change set holding exactly one room-state event. -/
def singletonStateChange (room : RoomId) (event : AnySyncStateEvent) : StateChanges :=
  { StateChanges.empty with
    state := [(room, [(event.event_type, [(event.state_key, event)])])] }

/-- The membership-index invariant for one (room, user) pair after a
commit sequence `cs` from a fresh store: the pair's joined-index entry is
present (with the user id as value) iff the most recently committed
member event for the pair is a `Join`; likewise invited / `Invite`; if
the last event is neither (or no event was ever committed) both entries
are absent; and the two entries are never present simultaneously. -/
def membershipIndexInvariantAt (cs : List StateChanges) (room : RoomId) (user : UserId) :
    Prop :=
  (Tree.get (saveAll Store.openStore cs).joined_user_ids (memberKey room user.str)
      = some user.str
    ↔ ∃ e, lastMemberEventFor (List.flatMap cs memberSeq) room user = some e
        ∧ e.content.membership = MembershipState.join)
  ∧ (Tree.get (saveAll Store.openStore cs).invited_user_ids (memberKey room user.str)
      = some user.str
    ↔ ∃ e, lastMemberEventFor (List.flatMap cs memberSeq) room user = some e
        ∧ e.content.membership = MembershipState.invite)
  ∧ ((∀ e, lastMemberEventFor (List.flatMap cs memberSeq) room user = some e →
        ¬ e.content.membership = MembershipState.join
        ∧ ¬ e.content.membership = MembershipState.invite) →
      Tree.get (saveAll Store.openStore cs).joined_user_ids (memberKey room user.str) = none
      ∧ Tree.get (saveAll Store.openStore cs).invited_user_ids (memberKey room user.str) = none)
  ∧ ¬ ((Tree.get (saveAll Store.openStore cs).joined_user_ids
          (memberKey room user.str)).isSome = true
      ∧ (Tree.get (saveAll Store.openStore cs).invited_user_ids
          (memberKey room user.str)).isSome = true)

/-! ### Basic lemmas about the region model -/

/-- `Tree.remove` is a key filter. -/
theorem Tree.remove_eq_filter {α : Type} (t : Tree α) (k : String) :
    Tree.remove t k = List.filter (fun e => !(e.1 == k)) t := by
  induction t with
  | nil => rfl
  | cons e t ih =>
    by_cases h : e.1 = k <;> simp [Tree.remove, List.filter_cons, h, ih]

theorem Tree.get_remove {α : Type} (t : Tree α) (k k' : String) :
    Tree.get (Tree.remove t k) k' = if k' = k then none else Tree.get t k' := by
  induction t with
  | nil =>
    simp only [Tree.remove, Tree.get]
    split <;> rfl
  | cons e t ih =>
    by_cases hek : e.1 = k
    · simp only [Tree.remove, if_pos hek, ih]
      by_cases hk : k' = k
      · rw [if_pos hk, if_pos hk]
      · have hek' : ¬ e.1 = k' := by
          rw [hek]
          exact fun h => hk h.symm
        simp only [if_neg hk, Tree.get, if_neg hek']
    · simp only [Tree.remove, if_neg hek]
      by_cases hek' : e.1 = k'
      · have hk : ¬ k' = k := by
          rw [← hek']
          exact hek
        simp only [Tree.get, if_pos hek', if_neg hk]
      · simp only [Tree.get, if_neg hek', ih]

theorem Tree.get_insert {α : Type} (t : Tree α) (k k' : String) (v : α) :
    Tree.get (Tree.insert t k v) k' = if k' = k then some v else Tree.get t k' := by
  simp only [Tree.insert, Tree.get]
  by_cases hk : k = k'
  · rw [if_pos hk, if_pos hk.symm]
  · rw [if_neg hk, Tree.get_remove, if_neg (fun h : k' = k => hk h.symm),
      if_neg (fun h : k' = k => hk h.symm)]

theorem Tree.applyOps_append {α : Type} (t : Tree α) (w1 w2 : List (Op α)) :
    Tree.applyOps t (w1 ++ w2) = Tree.applyOps (Tree.applyOps t w1) w2 := by
  induction w1 generalizing t with
  | nil => rfl
  | cons o w ih => simp [Tree.applyOps, ih]

/-- Point lookup after a write sequence is decided by the last write on
that key, falling back to the original region. -/
theorem Tree.get_applyOps {α : Type} (t : Tree α) (w : List (Op α)) (k : String) :
    Tree.get (Tree.applyOps t w) k =
      match lastOn w k with
      | some (Op.ins _ v) => some v
      | some (Op.del _) => none
      | none => Tree.get t k := by
  induction w generalizing t with
  | nil => rfl
  | cons o w ih =>
    simp only [Tree.applyOps, lastOn, ih]
    cases hlast : lastOn w k with
    | some o' => cases o' <;> rfl
    | none =>
      cases o with
      | ins k0 v0 =>
        simp only [Op.key]
        by_cases hk : k0 = k
        · simp [hk, Tree.applyOp, Tree.get_insert]
        · simp only [if_neg hk, Tree.applyOp, Tree.get_insert,
            if_neg (fun h : k = k0 => hk h.symm)]
      | del k0 =>
        simp only [Op.key]
        by_cases hk : k0 = k
        · simp [hk, Tree.applyOp, Tree.get_remove]
        · simp only [if_neg hk, Tree.applyOp, Tree.get_remove,
            if_neg (fun h : k = k0 => hk h.symm)]

/-- A write sequence that never touches `k` leaves the lookup at `k`
unchanged. -/
theorem Tree.get_applyOps_of_not_touched {α : Type} (t : Tree α) (w : List (Op α))
    (k : String) (h : lastOn w k = none) :
    Tree.get (Tree.applyOps t w) k = Tree.get t k := by
  rw [Tree.get_applyOps, h]

/-- A sequence with no write on `k` has no last write on `k`. -/
theorem lastOn_eq_none {α : Type} (w : List (Op α)) (k : String)
    (h : ∀ o ∈ w, ¬ Op.key o = k) : lastOn w k = none := by
  induction w with
  | nil => rfl
  | cons o w ih =>
    have hw : lastOn w k = none := ih (fun o' ho' => h o' (List.mem_cons_of_mem _ ho'))
    simp only [lastOn, hw, if_neg (h o (List.mem_cons_self _ _))]

/-- Fold characterization of a region across a commit sequence: the
region after `saveAll` is the initial region with every commit's write
sequence applied in order. -/
theorem saveAll_region {α : Type} (proj : Store → Tree α) (ops : StateChanges → List (Op α))
    (h : ∀ S c, proj (saveChanges S c) = Tree.applyOps (proj S) (ops c))
    (cs : List StateChanges) (S : Store) :
    proj (saveAll S cs) = Tree.applyOps (proj S) (List.flatMap cs ops) := by
  induction cs generalizing S with
  | nil => rfl
  | cons c cs ih =>
    have h1 : saveAll S (c :: cs) = saveAll (saveChanges S c) cs := rfl
    have h2 : List.flatMap (c :: cs) ops = ops c ++ List.flatMap cs ops := rfl
    rw [h1, ih, h, h2, Tree.applyOps_append]

theorem saveAll_session (cs : List StateChanges) (S : Store) :
    (saveAll S cs).session = Tree.applyOps S.session (List.flatMap cs sessionOps) :=
  saveAll_region (fun T => T.session) sessionOps (fun _ _ => rfl) cs S

theorem saveAll_presence (cs : List StateChanges) (S : Store) :
    (saveAll S cs).presence = Tree.applyOps S.presence (List.flatMap cs presenceOps) :=
  saveAll_region (fun T => T.presence) presenceOps (fun _ _ => rfl) cs S

theorem saveAll_room_state (cs : List StateChanges) (S : Store) :
    (saveAll S cs).room_state = Tree.applyOps S.room_state (List.flatMap cs stateOps) :=
  saveAll_region (fun T => T.room_state) stateOps (fun _ _ => rfl) cs S

theorem saveAll_members (cs : List StateChanges) (S : Store) :
    (saveAll S cs).members =
      Tree.applyOps S.members (List.flatMap cs (fun c => (memberSeq c).map memberOp)) :=
  saveAll_region (fun T => T.members) (fun c => (memberSeq c).map memberOp)
    (fun _ _ => rfl) cs S

theorem saveAll_joined (cs : List StateChanges) (S : Store) :
    (saveAll S cs).joined_user_ids =
      Tree.applyOps S.joined_user_ids (List.flatMap cs (fun c => (memberSeq c).map joinedOp)) :=
  saveAll_region (fun T => T.joined_user_ids) (fun c => (memberSeq c).map joinedOp)
    (fun _ _ => rfl) cs S

theorem saveAll_invited (cs : List StateChanges) (S : Store) :
    (saveAll S cs).invited_user_ids =
      Tree.applyOps S.invited_user_ids (List.flatMap cs (fun c => (memberSeq c).map invitedOp)) :=
  saveAll_region (fun T => T.invited_user_ids) (fun c => (memberSeq c).map invitedOp)
    (fun _ _ => rfl) cs S

/-- The key written by `save_filter` never equals the session key. -/
theorem filterKey_ne_session (name : String) : filterKey name ≠ "session" := by
  intro h
  have hd := congrArg String.data h
  rw [filterKey, String.data_append] at hd
  have hf : "filter".data = ['f', 'i', 'l', 't', 'e', 'r'] := rfl
  have hs : "session".data = ['s', 'e', 's', 's', 'i', 'o', 'n'] := rfl
  rw [hf, hs] at hd
  simp at hd

theorem userId_str_inj {a b : UserId} (h : a.str = b.str) : a = b := by
  cases a
  cases b
  cases h
  rfl

theorem roomId_str_inj {a b : RoomId} (h : a.str = b.str) : a = b := by
  cases a
  cases b
  cases h
  rfl

/-- Claim C3: committing a change set built solely from a session, then
reading the session back, yields exactly that session. -/
theorem session_round_trip (S : Store) (s : Session) :
    Store.getSession (saveChanges S (StateChanges.fromSession s)) = some s := by
  have h1 : (saveChanges S (StateChanges.fromSession s)).session =
      Tree.insert S.session "session" (.sess s) := rfl
  rw [Store.getSession, h1, Tree.get_insert, if_pos rfl]
  rfl

/-- Claim C10: the key written by `save_filter` begins with the literal
`"filter"`, hence differs from the key `"session"`; any sequence of
`save_filter` calls leaves `get_session` unchanged, and committing a
session leaves every `get_filter` result unchanged. -/
theorem save_filter_session_frame (S : Store) (l : List (String × String))
    (name : String) (s : Session) :
    (filterKey name).data = "filter".data ++ name.data
    ∧ filterKey name ≠ "session"
    ∧ Store.getSession (saveFilters S l) = Store.getSession S
    ∧ Store.getFilter (saveChanges S (StateChanges.fromSession s)) name =
        Store.getFilter S name := by
  refine ⟨String.data_append _ _, filterKey_ne_session name, ?_, ?_⟩
  · induction l generalizing S with
    | nil => rfl
    | cons p l ih =>
      have h1 : saveFilters S (p :: l) = saveFilters (Store.saveFilter S p.1 p.2) l := rfl
      rw [h1, ih]
      show Store.getSession (Store.saveFilter S p.1 p.2) = Store.getSession S
      have h2 : Tree.get (Store.saveFilter S p.1 p.2).session "session" =
          Tree.get S.session "session" := by
        show Tree.get (Tree.insert S.session (filterKey p.1) (.str p.2)) "session" = _
        rw [Tree.get_insert, if_neg (fun h => filterKey_ne_session p.1 h.symm)]
      rw [Store.getSession, Store.getSession, h2]
  · have h1 : (saveChanges S (StateChanges.fromSession s)).session =
        Tree.insert S.session "session" (.sess s) := rfl
    rw [Store.getFilter, Store.getFilter, h1, Tree.get_insert,
      if_neg (filterKey_ne_session name)]

/-- Claim C7: when no record was ever committed under the queried key,
every point read (`get_session`, `get_presence_event`, `get_state_event`,
`get_member_event`, `get_filter`) returns the absence marker `none`; in
particular all of them do on a freshly opened store. -/
theorem point_reads_absent
    (cs : List StateChanges) (user : UserId) (room : RoomId) (event_type state_key : String)
    (room_m : RoomId) (user_m : UserId) (fname : String)
    (hsess : ∀ c ∈ cs, c.session = none)
    (hpres : ∀ c ∈ cs, ∀ p ∈ c.presence, ¬ p.1 = user)
    (hstate : ∀ c ∈ cs, ∀ rt ∈ c.state, ∀ tv ∈ rt.2, ∀ ke ∈ tv.2,
      ¬ stateKey3 rt.1 ke.2.event_type ke.2.state_key = stateKey3 room event_type state_key)
    (hmem : ∀ c ∈ cs, ∀ p ∈ memberSeq c,
      ¬ memberKey p.1 p.2.state_key.str = memberKey room_m user_m.str) :
    Store.getSession (saveAll Store.openStore cs) = none
    ∧ Store.getPresenceEvent (saveAll Store.openStore cs) user = none
    ∧ Store.getStateEvent (saveAll Store.openStore cs) room event_type state_key = none
    ∧ Store.getMemberEvent (saveAll Store.openStore cs) room_m user_m = none
    ∧ Store.getFilter (saveAll Store.openStore cs) fname = none := by
  refine ⟨?_, ?_, ?_, ?_, ?_⟩
  · have hn : lastOn (List.flatMap cs sessionOps) "session" = none := by
      apply lastOn_eq_none
      intro o ho
      rcases List.mem_flatMap.mp ho with ⟨c, hc, hoc⟩
      rw [sessionOps, hsess c hc] at hoc
      simp at hoc
    have h : Tree.get (saveAll Store.openStore cs).session "session" = none := by
      rw [saveAll_session, Tree.get_applyOps_of_not_touched _ _ _ hn]
      rfl
    rw [Store.getSession, h]
    rfl
  · have hn : lastOn (List.flatMap cs presenceOps) user.str = none := by
      apply lastOn_eq_none
      intro o ho
      rcases List.mem_flatMap.mp ho with ⟨c, hc, hoc⟩
      rcases List.mem_map.mp hoc with ⟨ue, hue, rfl⟩
      exact fun h => hpres c hc ue hue (userId_str_inj h)
    rw [Store.getPresenceEvent, saveAll_presence,
      Tree.get_applyOps_of_not_touched _ _ _ hn]
    rfl
  · have hn : lastOn (List.flatMap cs stateOps)
        (stateKey3 room event_type state_key) = none := by
      apply lastOn_eq_none
      intro o ho
      rcases List.mem_flatMap.mp ho with ⟨c, hc, hoc⟩
      rcases List.mem_flatMap.mp hoc with ⟨rt, hrt, hort⟩
      rcases List.mem_flatMap.mp hort with ⟨tv, htv, hotv⟩
      rcases List.mem_map.mp hotv with ⟨ke, hke, rfl⟩
      exact hstate c hc rt hrt tv htv ke hke
    rw [Store.getStateEvent, saveAll_room_state,
      Tree.get_applyOps_of_not_touched _ _ _ hn]
    rfl
  · have hn : lastOn (List.flatMap cs (fun c => (memberSeq c).map memberOp))
        (memberKey room_m user_m.str) = none := by
      apply lastOn_eq_none
      intro o ho
      rcases List.mem_flatMap.mp ho with ⟨c, hc, hoc⟩
      rcases List.mem_map.mp hoc with ⟨p, hp, rfl⟩
      exact hmem c hc p hp
    rw [Store.getMemberEvent, saveAll_members,
      Tree.get_applyOps_of_not_touched _ _ _ hn]
    rfl
  · have hn : lastOn (List.flatMap cs sessionOps) (filterKey fname) = none := by
      apply lastOn_eq_none
      intro o ho
      rcases List.mem_flatMap.mp ho with ⟨c, hc, hoc⟩
      rw [sessionOps] at hoc
      cases hcs : c.session with
      | none =>
        rw [hcs] at hoc
        simp at hoc
      | some s =>
        rw [hcs] at hoc
        have : o = Op.ins "session" (.sess s) := by
          simpa using hoc
        rw [this]
        exact fun h => filterKey_ne_session fname h.symm
    have h : Tree.get (saveAll Store.openStore cs).session (filterKey fname) = none := by
      rw [saveAll_session, Tree.get_applyOps_of_not_touched _ _ _ hn]
      rfl
    rw [Store.getFilter, h]
    rfl

theorem str_append_left_cancel {a b c : String} (h : a ++ b = a ++ c) : b = c := by
  have hd := congrArg String.data h
  rw [String.data_append, String.data_append] at hd
  exact String.ext (List.append_cancel_left hd)

/-- Within one room, the composite member key determines the user part. -/
theorem memberKey_inj_right {room : RoomId} {x y : String}
    (h : memberKey room x = memberKey room y) : x = y :=
  str_append_left_cancel h

/-- Witness for C7 at a concrete commit sequence touching other keys. -/
theorem point_reads_absent_witness :
    (∀ c ∈ ([{ StateChanges.empty with
        presence := [(⟨"@a:h"⟩, ⟨⟨"@a:h"⟩, "online"⟩)],
        members := [(⟨"!r:h"⟩, [(⟨"@a:h"⟩, ⟨"$e1", ⟨"@a:h"⟩, ⟨"@a:h"⟩,
          ⟨MembershipState.join⟩⟩)])] }] : List StateChanges), c.session = none)
    ∧ (∀ c ∈ ([{ StateChanges.empty with
        presence := [(⟨"@a:h"⟩, ⟨⟨"@a:h"⟩, "online"⟩)],
        members := [(⟨"!r:h"⟩, [(⟨"@a:h"⟩, ⟨"$e1", ⟨"@a:h"⟩, ⟨"@a:h"⟩,
          ⟨MembershipState.join⟩⟩)])] }] : List StateChanges),
        ∀ p ∈ c.presence, ¬ p.1 = (⟨"@b:h"⟩ : UserId))
    ∧ (Store.getSession (saveAll Store.openStore [{ StateChanges.empty with
        presence := [(⟨"@a:h"⟩, ⟨⟨"@a:h"⟩, "online"⟩)],
        members := [(⟨"!r:h"⟩, [(⟨"@a:h"⟩, ⟨"$e1", ⟨"@a:h"⟩, ⟨"@a:h"⟩,
          ⟨MembershipState.join⟩⟩)])] }]) = none
      ∧ Store.getPresenceEvent (saveAll Store.openStore [{ StateChanges.empty with
        presence := [(⟨"@a:h"⟩, ⟨⟨"@a:h"⟩, "online"⟩)],
        members := [(⟨"!r:h"⟩, [(⟨"@a:h"⟩, ⟨"$e1", ⟨"@a:h"⟩, ⟨"@a:h"⟩,
          ⟨MembershipState.join⟩⟩)])] }]) ⟨"@b:h"⟩ = none
      ∧ Store.getStateEvent (saveAll Store.openStore [{ StateChanges.empty with
        presence := [(⟨"@a:h"⟩, ⟨⟨"@a:h"⟩, "online"⟩)],
        members := [(⟨"!r:h"⟩, [(⟨"@a:h"⟩, ⟨"$e1", ⟨"@a:h"⟩, ⟨"@a:h"⟩,
          ⟨MembershipState.join⟩⟩)])] }]) ⟨"!r:h"⟩ "m.room.name" "" = none
      ∧ Store.getMemberEvent (saveAll Store.openStore [{ StateChanges.empty with
        presence := [(⟨"@a:h"⟩, ⟨⟨"@a:h"⟩, "online"⟩)],
        members := [(⟨"!r:h"⟩, [(⟨"@a:h"⟩, ⟨"$e1", ⟨"@a:h"⟩, ⟨"@a:h"⟩,
          ⟨MembershipState.join⟩⟩)])] }]) ⟨"!r:h"⟩ ⟨"@b:h"⟩ = none
      ∧ Store.getFilter (saveAll Store.openStore [{ StateChanges.empty with
        presence := [(⟨"@a:h"⟩, ⟨⟨"@a:h"⟩, "online"⟩)],
        members := [(⟨"!r:h"⟩, [(⟨"@a:h"⟩, ⟨"$e1", ⟨"@a:h"⟩, ⟨"@a:h"⟩,
          ⟨MembershipState.join⟩⟩)])] }]) "testfilter" = none) :=
  ⟨by decide, by decide,
    point_reads_absent _ ⟨"@b:h"⟩ ⟨"!r:h"⟩ "m.room.name" "" ⟨"!r:h"⟩ ⟨"@b:h"⟩ "testfilter"
      (by decide) (by decide) (by decide) (by decide)⟩

/-- Claim C9: `save_changes` keys a member record by the event's own
`state_key`, ignoring the user id under which it was batched: the record
is always retrievable under the event's `state_key`, and (on a fresh
store) under exactly that user id — which equals the batch key only when
the two agree. -/
theorem member_record_keyed_by_state_key (S : Store) (room : RoomId) (user : UserId)
    (event : MemberEvent) :
    Store.getMemberEvent (saveChanges S (singletonMemberChange room user event)) room
        event.state_key = some event
    ∧ (∀ u : UserId,
        Store.getMemberEvent
            (saveChanges Store.openStore (singletonMemberChange room user event)) room u =
          some event ↔ u = event.state_key) := by
  have hmembers : ∀ T : Store,
      (saveChanges T (singletonMemberChange room user event)).members =
        Tree.insert T.members (memberKey room event.state_key.str) event :=
    fun T => rfl
  constructor
  · rw [Store.getMemberEvent, hmembers, Tree.get_insert, if_pos rfl]
  · intro u
    rw [Store.getMemberEvent, hmembers, Tree.get_insert]
    constructor
    · intro h
      by_cases hk : memberKey room u.str = memberKey room event.state_key.str
      · exact userId_str_inj (memberKey_inj_right hk)
      · rw [if_neg hk] at h
        exact Option.noConfusion h
    · intro h
      rw [h, if_pos rfl]

theorem lookupAL_insertAL {κ α : Type} [DecidableEq κ] (k : κ) (v : α) (l : List (κ × α)) :
    lookupAL k (insertAL k v l) = some v := by
  induction l with
  | nil => simp [insertAL, lookupAL]
  | cons e t ih =>
    by_cases h : e.1 = k
    · simp [insertAL, lookupAL, h]
    · simp [insertAL, lookupAL, h, ih]

/-- Claim C8: `add_stripped_member` panics (modelled as `none`) exactly
when the event's `state_key` fails the user-id parse; on a successful
parse it accumulates the event keyed by the parsed user id. -/
theorem add_stripped_member_parses_state_key (c : StateChanges) (room_id : RoomId)
    (event : StrippedMemberEvent) :
    (StateChanges.add_stripped_member c room_id event = none
        ↔ UserId.tryFrom event.state_key = none)
    ∧ (∀ u, UserId.tryFrom event.state_key = some u →
        ∃ c', StateChanges.add_stripped_member c room_id event = some c'
          ∧ lookupAL u ((lookupAL room_id c'.stripped_members).getD []) = some event) := by
  constructor
  · constructor
    · intro h
      cases htf : UserId.tryFrom event.state_key with
      | none => rfl
      | some u =>
        rw [StateChanges.add_stripped_member, htf] at h
        exact Option.noConfusion h
    · intro h
      rw [StateChanges.add_stripped_member, h]
  · intro u hu
    refine ⟨{ c with
        stripped_members := (insertAL room_id
          (insertAL u event ((lookupAL room_id c.stripped_members).getD []))
          c.stripped_members) }, ?_, ?_⟩
    · rw [StateChanges.add_stripped_member, hu]
    · show lookupAL u ((lookupAL room_id (insertAL room_id _ c.stripped_members)).getD [])
          = some event
      rw [lookupAL_insertAL]
      exact lookupAL_insertAL u event _

/-- Witness for C8: a parseable state key, with the accumulated entry
retrievable under the parsed user id. -/
theorem add_stripped_member_witness :
    UserId.tryFrom "@a:h" = some ⟨"@a:h"⟩
    ∧ ∃ c', StateChanges.add_stripped_member StateChanges.empty ⟨"!r:h"⟩
          ⟨⟨"@a:h"⟩, "@a:h", ⟨MembershipState.join⟩⟩ = some c'
        ∧ lookupAL (⟨"@a:h"⟩ : UserId)
            ((lookupAL (⟨"!r:h"⟩ : RoomId) c'.stripped_members).getD []) =
          some ⟨⟨"@a:h"⟩, "@a:h", ⟨MembershipState.join⟩⟩ :=
  ⟨by decide,
    (add_stripped_member_parses_state_key StateChanges.empty ⟨"!r:h"⟩
      ⟨⟨"@a:h"⟩, "@a:h", ⟨MembershipState.join⟩⟩).2 ⟨"@a:h"⟩ (by decide)⟩

/-- Claim C4 (code defect): composite keys are raw concatenations and are
not injective over logical identities: the distinct identities
(`!r:x`, `m.a`, `bc`) and (`!r:x`, `m.ab`, `c`) share one room_state key,
and a state event committed under the latter identity is returned by
`get_state_event` for the former. -/
theorem composite_key_collision :
    stateKey3 ⟨"!r:x"⟩ "m.a" "bc" = stateKey3 ⟨"!r:x"⟩ "m.ab" "c"
    ∧ ¬ (("m.a", "bc") = (("m.ab", "c") : String × String))
    ∧ Store.getStateEvent
        (saveChanges Store.openStore (singletonStateChange ⟨"!r:x"⟩ ⟨"m.ab", "c", "v"⟩))
        ⟨"!r:x"⟩ "m.a" "bc" = some ⟨"m.ab", "c", "v"⟩ := by
  refine ⟨by decide, by decide, ?_⟩
  rfl

/-- Claim C5 (code defect): when one room id is a string-prefix of
another, the shorter room's index scans observe the longer room's
entries: with nothing ever committed for room `!a:b`, a joined-membership
commit for room `!a:bc` makes `get_joined_user_ids("!a:b")` return that
other room's user, while the member record for (`!a:b`, `@u:h`) is
absent. -/
theorem joined_scan_leaks_across_rooms :
    ¬ ((⟨"!a:b"⟩ : RoomId) = ⟨"!a:bc"⟩)
    ∧ Store.getJoinedUserIds
        (saveChanges Store.openStore
          (singletonMemberChange ⟨"!a:bc"⟩ ⟨"@u:h"⟩
            ⟨"$e1", ⟨"@u:h"⟩, ⟨"@u:h"⟩, ⟨MembershipState.join⟩⟩))
        ⟨"!a:b"⟩ = [⟨"@u:h"⟩]
    ∧ Store.getMemberEvent
        (saveChanges Store.openStore
          (singletonMemberChange ⟨"!a:bc"⟩ ⟨"@u:h"⟩
            ⟨"$e1", ⟨"@u:h"⟩, ⟨"@u:h"⟩, ⟨MembershipState.join⟩⟩))
        ⟨"!a:b"⟩ ⟨"@u:h"⟩ = none := by
  refine ⟨by decide, ?_, ?_⟩ <;> rfl

theorem str_beq_comm (x a : String) : (x == a) = (a == x) := by
  by_cases h : x = a
  · rw [h]
  · have h1 : (x == a) = false := by
      rw [beq_eq_false_iff_ne]
      exact h
    have h2 : (a == x) = false := by
      rw [beq_eq_false_iff_ne]
      exact fun hh => h hh.symm
    rw [h1, h2]

/-- Removing a key then dropping the touched entries is one combined
filter. -/
theorem dropTouched_remove {α : Type} (w : List (Op α)) (a : String) (t : Tree α) :
    dropTouched w (Tree.remove t a) =
      List.filter (fun e => !((a == e.1) || opsTouch w e.1)) t := by
  rw [dropTouched, Tree.remove_eq_filter, List.filter_filter]
  apply List.filter_congr
  intro e _
  rw [Bool.not_or, Bool.and_comm, str_beq_comm]

/-- One write followed by a write sequence decomposes into the entries
the writes produce plus the untouched remainder. -/
theorem dropTouched_applyOp {α : Type} (w : List (Op α)) (o : Op α) (t : Tree α) :
    dropTouched w (Tree.applyOp t o) =
      dropTouched w (Tree.applyOp [] o) ++ dropTouched (o :: w) t := by
  cases o with
  | ins a x =>
    show dropTouched w ((a, x) :: Tree.remove t a)
        = dropTouched w ((a, x) :: Tree.remove [] a) ++
          List.filter (fun e => !((a == e.1) || opsTouch w e.1)) t
    rw [← dropTouched_remove]
    show List.filter _ ([(a, x)] ++ Tree.remove t a)
        = List.filter _ [(a, x)] ++ List.filter _ (Tree.remove t a)
    rw [List.filter_append]
  | del a =>
    show dropTouched w (Tree.remove t a)
        = dropTouched w (Tree.remove [] a) ++
          List.filter (fun e => !((a == e.1) || opsTouch w e.1)) t
    rw [dropTouched_remove]
    rfl

/-- A write sequence yields its own surviving insertions in front of the
untouched entries of the original region. -/
theorem Tree.applyOps_decompose {α : Type} (w : List (Op α)) (t : Tree α) :
    Tree.applyOps t w = Tree.applyOps [] w ++ dropTouched w t := by
  induction w generalizing t with
  | nil =>
    show t = [] ++ dropTouched [] t
    rw [List.nil_append, dropTouched]
    symm
    apply List.filter_eq_self.mpr
    intro e _
    rfl
  | cons o w ih =>
    show Tree.applyOps (Tree.applyOp t o) w
        = Tree.applyOps (Tree.applyOp [] o) w ++ dropTouched (o :: w) t
    rw [ih (Tree.applyOp t o), ih (Tree.applyOp [] o), List.append_assoc,
      ← dropTouched_applyOp]

/-- Every entry a write sequence leaves in an initially empty region has
a touched key. -/
theorem mem_applyOps_touched {α : Type} (w : List (Op α)) (t : Tree α) :
    ∀ e ∈ Tree.applyOps t w, opsTouch w e.1 = true ∨ e ∈ t := by
  induction w generalizing t with
  | nil =>
    intro e he
    exact Or.inr he
  | cons o w ih =>
    intro e he
    rcases ih (Tree.applyOp t o) e he with h | h
    · left
      show (Op.key o == e.1 || opsTouch w e.1) = true
      rw [h, Bool.or_true]
    · cases o with
      | ins a x =>
        have h' : e ∈ (a, x) :: Tree.remove t a := h
        rcases List.mem_cons.mp h' with rfl | h2
        · left
          show (a == a || _) = true
          rw [beq_self_eq_true, Bool.true_or]
        · right
          rw [Tree.remove_eq_filter] at h2
          exact List.filter_subset' t h2
      | del a =>
        right
        have h' : e ∈ Tree.remove t a := h
        rw [Tree.remove_eq_filter] at h'
        exact List.filter_subset' t h'

/-- The entries a write sequence produces are all dropped by
`dropTouched` for the same sequence. -/
theorem dropTouched_applyOps_nil {α : Type} (w : List (Op α)) :
    dropTouched w (Tree.applyOps [] w) = [] := by
  rw [dropTouched]
  apply List.filter_eq_nil_iff.mpr
  intro e he
  rcases mem_applyOps_touched w [] e he with h | h
  · rw [h]
    exact fun hh => Bool.noConfusion hh
  · exact absurd h (List.not_mem_nil e)

theorem dropTouched_dropTouched {α : Type} (w : List (Op α)) (t : Tree α) :
    dropTouched w (dropTouched w t) = dropTouched w t := by
  rw [dropTouched, dropTouched, List.filter_filter]
  apply List.filter_congr
  intro e _
  rw [Bool.and_self]

/-- Applying the same write sequence twice equals applying it once. -/
theorem Tree.applyOps_idem {α : Type} (t : Tree α) (w : List (Op α)) :
    Tree.applyOps (Tree.applyOps t w) w = Tree.applyOps t w := by
  calc Tree.applyOps (Tree.applyOps t w) w
      = Tree.applyOps [] w ++ dropTouched w (Tree.applyOps t w) :=
        Tree.applyOps_decompose w _
    _ = Tree.applyOps [] w ++
          dropTouched w (Tree.applyOps [] w ++ dropTouched w t) := by
        rw [show Tree.applyOps t w = Tree.applyOps [] w ++ dropTouched w t from
          Tree.applyOps_decompose w t]
    _ = Tree.applyOps [] w ++
          (dropTouched w (Tree.applyOps [] w) ++ dropTouched w (dropTouched w t)) := by
        simp only [dropTouched, List.filter_append]
    _ = Tree.applyOps [] w ++ ([] ++ dropTouched w t) := by
        rw [dropTouched_applyOps_nil, dropTouched_dropTouched]
    _ = Tree.applyOps t w := by
        rw [List.nil_append, ← Tree.applyOps_decompose w t]

/-- Claim C6: `save_changes` is idempotent — committing the same change
set twice in succession leaves the store in exactly the state of
committing it once, region for region. -/
theorem save_changes_idempotent (S : Store) (c : StateChanges) :
    saveChanges (saveChanges S c) c = saveChanges S c := by
  apply Store.ext <;> exact Tree.applyOps_idem _ _

/-- The joined-index lookup at key `K` after a member write sequence is
decided by the last member write whose store key is `K`. -/
theorem get_joined_after (l : List (RoomId × MemberEvent)) (t : Tree String) (K : String) :
    Tree.get (Tree.applyOps t (l.map joinedOp)) K =
      match lastMemberWrite l K with
      | some p =>
          if p.2.content.membership = MembershipState.join
          then some p.2.state_key.str else none
      | none => Tree.get t K := by
  induction l generalizing t with
  | nil => rfl
  | cons p l ih =>
    have hstep : Tree.applyOps t ((p :: l).map joinedOp)
        = Tree.applyOps (Tree.applyOp t (joinedOp p)) (l.map joinedOp) := rfl
    rw [hstep, ih]
    simp only [lastMemberWrite]
    cases hl : lastMemberWrite l K with
    | some q => rfl
    | none =>
      by_cases hk : memberKey p.1 p.2.state_key.str = K
      · rw [if_pos hk]
        show Tree.get (Tree.applyOp t (joinedOp p)) K
            = if p.2.content.membership = MembershipState.join
              then some p.2.state_key.str else none
        by_cases hm : p.2.content.membership = MembershipState.join
        · rw [if_pos hm]
          have hop : joinedOp p
              = Op.ins (memberKey p.1 p.2.state_key.str) p.2.state_key.str := by
            rw [joinedOp, if_pos hm]
          rw [hop]
          show Tree.get (Tree.insert t (memberKey p.1 p.2.state_key.str) p.2.state_key.str) K
              = some p.2.state_key.str
          rw [Tree.get_insert, if_pos hk.symm]
        · rw [if_neg hm]
          have hop : joinedOp p = Op.del (memberKey p.1 p.2.state_key.str) := by
            rw [joinedOp, if_neg hm]
          rw [hop]
          show Tree.get (Tree.remove t (memberKey p.1 p.2.state_key.str)) K = none
          rw [Tree.get_remove, if_pos hk.symm]
      · rw [if_neg hk]
        show Tree.get (Tree.applyOp t (joinedOp p)) K = Tree.get t K
        by_cases hm : p.2.content.membership = MembershipState.join
        · have hop : joinedOp p
              = Op.ins (memberKey p.1 p.2.state_key.str) p.2.state_key.str := by
            rw [joinedOp, if_pos hm]
          rw [hop]
          show Tree.get (Tree.insert t (memberKey p.1 p.2.state_key.str) p.2.state_key.str) K
              = Tree.get t K
          rw [Tree.get_insert, if_neg (fun h : K = _ => hk h.symm)]
        · have hop : joinedOp p = Op.del (memberKey p.1 p.2.state_key.str) := by
            rw [joinedOp, if_neg hm]
          rw [hop]
          show Tree.get (Tree.remove t (memberKey p.1 p.2.state_key.str)) K = Tree.get t K
          rw [Tree.get_remove, if_neg (fun h : K = _ => hk h.symm)]

/-- The invited-index lookup at key `K` after a member write sequence is
decided by the last member write whose store key is `K`. -/
theorem get_invited_after (l : List (RoomId × MemberEvent)) (t : Tree String) (K : String) :
    Tree.get (Tree.applyOps t (l.map invitedOp)) K =
      match lastMemberWrite l K with
      | some p =>
          if p.2.content.membership = MembershipState.invite
          then some p.2.state_key.str else none
      | none => Tree.get t K := by
  induction l generalizing t with
  | nil => rfl
  | cons p l ih =>
    have hstep : Tree.applyOps t ((p :: l).map invitedOp)
        = Tree.applyOps (Tree.applyOp t (invitedOp p)) (l.map invitedOp) := rfl
    rw [hstep, ih]
    simp only [lastMemberWrite]
    cases hl : lastMemberWrite l K with
    | some q => rfl
    | none =>
      by_cases hk : memberKey p.1 p.2.state_key.str = K
      · rw [if_pos hk]
        show Tree.get (Tree.applyOp t (invitedOp p)) K
            = if p.2.content.membership = MembershipState.invite
              then some p.2.state_key.str else none
        by_cases hm : p.2.content.membership = MembershipState.invite
        · rw [if_pos hm]
          have hop : invitedOp p
              = Op.ins (memberKey p.1 p.2.state_key.str) p.2.state_key.str := by
            rw [invitedOp, if_pos hm]
          rw [hop]
          show Tree.get (Tree.insert t (memberKey p.1 p.2.state_key.str) p.2.state_key.str) K
              = some p.2.state_key.str
          rw [Tree.get_insert, if_pos hk.symm]
        · rw [if_neg hm]
          have hop : invitedOp p = Op.del (memberKey p.1 p.2.state_key.str) := by
            rw [invitedOp, if_neg hm]
          rw [hop]
          show Tree.get (Tree.remove t (memberKey p.1 p.2.state_key.str)) K = none
          rw [Tree.get_remove, if_pos hk.symm]
      · rw [if_neg hk]
        show Tree.get (Tree.applyOp t (invitedOp p)) K = Tree.get t K
        by_cases hm : p.2.content.membership = MembershipState.invite
        · have hop : invitedOp p
              = Op.ins (memberKey p.1 p.2.state_key.str) p.2.state_key.str := by
            rw [invitedOp, if_pos hm]
          rw [hop]
          show Tree.get (Tree.insert t (memberKey p.1 p.2.state_key.str) p.2.state_key.str) K
              = Tree.get t K
          rw [Tree.get_insert, if_neg (fun h : K = _ => hk h.symm)]
        · have hop : invitedOp p = Op.del (memberKey p.1 p.2.state_key.str) := by
            rw [invitedOp, if_neg hm]
          rw [hop]
          show Tree.get (Tree.remove t (memberKey p.1 p.2.state_key.str)) K = Tree.get t K
          rw [Tree.get_remove, if_neg (fun h : K = _ => hk h.symm)]

/-- The most recent member event for a pair carries that pair's user id
as its state key. -/
theorem lastMemberEventFor_state_key (l : List (RoomId × MemberEvent)) (room : RoomId)
    (user : UserId) (e : MemberEvent)
    (h : lastMemberEventFor l room user = some e) : e.state_key = user := by
  induction l with
  | nil => exact Option.noConfusion h
  | cons p l ih =>
    simp only [lastMemberEventFor] at h
    cases hl : lastMemberEventFor l room user with
    | some e' =>
      rw [hl] at h
      have h2 : some e' = some e := h
      rw [Option.some.inj h2] at hl
      exact ih hl
    | none =>
      rw [hl] at h
      by_cases hc : p.1 = room ∧ p.2.state_key = user
      · rw [if_pos hc] at h
        have h2 : some p.2 = some e := h
        rw [← Option.some.inj h2]
        exact hc.2
      · rw [if_neg hc] at h
        exact Option.noConfusion h

/-- When no other pair's member writes collide with the pair's store key,
the last write on that key is exactly the last event for the pair. -/
theorem lastMemberWrite_eq_pair (l : List (RoomId × MemberEvent)) (room : RoomId)
    (user : UserId)
    (hinj : ∀ p ∈ l, memberKey p.1 p.2.state_key.str = memberKey room user.str →
      p.1 = room ∧ p.2.state_key = user) :
    lastMemberWrite l (memberKey room user.str)
      = (lastMemberEventFor l room user).map (fun e => (room, e)) := by
  induction l with
  | nil => rfl
  | cons p l ih =>
    have htail : ∀ q ∈ l, memberKey q.1 q.2.state_key.str = memberKey room user.str →
        q.1 = room ∧ q.2.state_key = user :=
      fun q hq => hinj q (List.mem_cons_of_mem _ hq)
    simp only [lastMemberWrite, lastMemberEventFor]
    rw [ih htail]
    cases hl : lastMemberEventFor l room user with
    | some e => rfl
    | none =>
      by_cases hk : memberKey p.1 p.2.state_key.str = memberKey room user.str
      · have hc := hinj p (List.mem_cons_self _ _) hk
        rw [if_pos hk, if_pos hc, Option.map_some']
        exact congrArg some (Prod.ext hc.1 rfl)
      · have hc' : ¬ (p.1 = room ∧ p.2.state_key = user) := by
          intro hc
          apply hk
          rw [memberKey, hc.1, hc.2]
          rfl
        rw [if_neg hk, if_neg hc']
        rfl

/-- Claim C1: for every (room, user) pair and commit sequence from a
fresh store — provided no member write of a different pair collides with
the pair's concatenated store key (true of validated Matrix ids; compare
the C4/C5 key-collision defect) — the joined entry is present iff the
most recently committed member event for the pair is a `Join`, the
invited entry iff an `Invite`, neither for `Leave`/`Ban`/`Knock` or no
event at all, and never both at once. -/
theorem membership_index_invariant (cs : List StateChanges) (room : RoomId) (user : UserId)
    (hinj : ∀ p ∈ List.flatMap cs memberSeq,
      memberKey p.1 p.2.state_key.str = memberKey room user.str →
      p.1 = room ∧ p.2.state_key = user) :
    membershipIndexInvariantAt cs room user := by
  have hmapJ : List.flatMap cs (fun c => (memberSeq c).map joinedOp)
      = (List.flatMap cs memberSeq).map joinedOp :=
    (List.map_flatMap joinedOp memberSeq cs).symm
  have hmapI : List.flatMap cs (fun c => (memberSeq c).map invitedOp)
      = (List.flatMap cs memberSeq).map invitedOp :=
    (List.map_flatMap invitedOp memberSeq cs).symm
  have hbr := lastMemberWrite_eq_pair (List.flatMap cs memberSeq) room user hinj
  have hJ : Tree.get (saveAll Store.openStore cs).joined_user_ids (memberKey room user.str)
      = match lastMemberEventFor (List.flatMap cs memberSeq) room user with
        | some e => if e.content.membership = MembershipState.join
            then some user.str else none
        | none => none := by
    rw [saveAll_joined, hmapJ, get_joined_after, hbr]
    cases hl : lastMemberEventFor (List.flatMap cs memberSeq) room user with
    | none => rfl
    | some e =>
      show (if e.content.membership = MembershipState.join
          then some e.state_key.str else none)
        = if e.content.membership = MembershipState.join then some user.str else none
      rw [lastMemberEventFor_state_key _ room user e hl]
  have hI : Tree.get (saveAll Store.openStore cs).invited_user_ids (memberKey room user.str)
      = match lastMemberEventFor (List.flatMap cs memberSeq) room user with
        | some e => if e.content.membership = MembershipState.invite
            then some user.str else none
        | none => none := by
    rw [saveAll_invited, hmapI, get_invited_after, hbr]
    cases hl : lastMemberEventFor (List.flatMap cs memberSeq) room user with
    | none => rfl
    | some e =>
      show (if e.content.membership = MembershipState.invite
          then some e.state_key.str else none)
        = if e.content.membership = MembershipState.invite then some user.str else none
      rw [lastMemberEventFor_state_key _ room user e hl]
  refine ⟨?_, ?_, ?_, ?_⟩
  · rw [hJ]
    cases hl : lastMemberEventFor (List.flatMap cs memberSeq) room user with
    | none => simp
    | some e =>
      by_cases hm : e.content.membership = MembershipState.join
      · simp [hm]
      · simp [hm]
  · rw [hI]
    cases hl : lastMemberEventFor (List.flatMap cs memberSeq) room user with
    | none => simp
    | some e =>
      by_cases hm : e.content.membership = MembershipState.invite
      · simp [hm]
      · simp [hm]
  · intro hno
    rw [hJ, hI]
    cases hl : lastMemberEventFor (List.flatMap cs memberSeq) room user with
    | none => exact ⟨rfl, rfl⟩
    | some e =>
      rcases hno e hl with ⟨hmj, hmi⟩
      constructor
      · show (if e.content.membership = MembershipState.join
            then some user.str else none) = none
        rw [if_neg hmj]
      · show (if e.content.membership = MembershipState.invite
            then some user.str else none) = none
        rw [if_neg hmi]
  · rintro ⟨hj, hi⟩
    rw [hJ] at hj
    rw [hI] at hi
    cases hl : lastMemberEventFor (List.flatMap cs memberSeq) room user with
    | none =>
      rw [hl] at hj
      exact Bool.noConfusion hj
    | some e =>
      rw [hl] at hj
      rw [hl] at hi
      have hj' : (if e.content.membership = MembershipState.join
          then some user.str else (none : Option String)).isSome = true := hj
      have hi' : (if e.content.membership = MembershipState.invite
          then some user.str else (none : Option String)).isSome = true := hi
      by_cases hm : e.content.membership = MembershipState.join
      · rw [hm] at hi'
        rw [if_neg (fun h => MembershipState.noConfusion h)] at hi'
        exact Bool.noConfusion hi'
      · rw [if_neg hm] at hj'
        exact Bool.noConfusion hj'

/-- Witness for C1 at a concrete one-commit sequence. -/
theorem membership_index_invariant_witness :
    (∀ p ∈ List.flatMap [singletonMemberChange ⟨"!r:h"⟩ ⟨"@u:h"⟩
          ⟨"$e1", ⟨"@u:h"⟩, ⟨"@u:h"⟩, ⟨MembershipState.join⟩⟩] memberSeq,
        memberKey p.1 p.2.state_key.str = memberKey ⟨"!r:h"⟩ (UserId.mk "@u:h").str →
        p.1 = ⟨"!r:h"⟩ ∧ p.2.state_key = ⟨"@u:h"⟩)
    ∧ membershipIndexInvariantAt
        [singletonMemberChange ⟨"!r:h"⟩ ⟨"@u:h"⟩
          ⟨"$e1", ⟨"@u:h"⟩, ⟨"@u:h"⟩, ⟨MembershipState.join⟩⟩] ⟨"!r:h"⟩ ⟨"@u:h"⟩ :=
  ⟨by decide,
    membership_index_invariant
      [singletonMemberChange ⟨"!r:h"⟩ ⟨"@u:h"⟩
        ⟨"$e1", ⟨"@u:h"⟩, ⟨"@u:h"⟩, ⟨MembershipState.join⟩⟩] ⟨"!r:h"⟩ ⟨"@u:h"⟩ (by decide)⟩

end MatrixStore
